import Mathlib

/-!
Verification of the archive-extraction core of the Expedition 33 mod manager
(`src/core.rs`): the two zip installers (`install_ue4ss`, `install_mod_from_zip`),
the installed-mod lister (`list_installed_mods`) and the directory-tree scanner
(`list_all_files_and_dirs`).

Modelling choices (shallow embedding):
* A zip entry's internal name is modelled after it has been parsed by
  `std::path::Path::components`: a list of `PathPart`s (normal name, `..`, `.`,
  or the root).  The entry kind (`ZipFile::is_dir`) and the decompressed bytes
  are carried as fields.
* The filesystem is a pure state: a list of directory paths, an association
  list of file paths to contents (most recent write first), and a set of paths
  at which any create operation fails (the fault model for I/O errors).
  Paths on disk are lists of plain name components; `..`/`.` components of an
  archive path are resolved against the join base exactly as the OS resolves
  them (`resolveFrom`), with `..` at the filesystem root staying at the root.
* `fs::create_dir_all` creates every missing ancestor and fails at the first
  ancestor that is a file or is in the fault set; `fs::File::create` followed
  by `io::copy` truncates/creates the destination file and fails if the
  destination is a directory, its parent directory is missing, or it is in the
  fault set.  An aborted operation returns the filesystem state reached so far
  together with the offending path (the `IoError`).
* The network fetch and zip-container decoding of the Rust code are fallible
  I/O that precedes the extraction loops; the loops are modelled on the
  already-decoded list of entries, which is what the claims are about.
-/

/-- Path components as produced by `std::path::Path::components`: a normal
name, a parent-directory step (`..`), a current-directory step (`.`), or the
filesystem root. -/
inductive PathPart where
  | normal (s : String)
  | parentDir
  | curDir
  | rootDir
deriving DecidableEq, Repr

/-- The string a component displays as (`Component::as_os_str`). -/
def PathPart.osStr : PathPart → String
  | .normal s => s
  | .parentDir => ".."
  | .curDir => "."
  | .rootDir => "/"

/-- ASCII lowercasing of one character (`u8::to_ascii_lowercase`). -/
def asciiLowerChar (c : Char) : Char :=
  if 'A' ≤ c ∧ c ≤ 'Z' then Char.ofNat (c.toNat + 32) else c

/-- ASCII lowercasing of a string (`OsStr::to_ascii_lowercase`). -/
def asciiLower (s : String) : String := ⟨s.data.map asciiLowerChar⟩

/-- One entry of a zip archive: its internal path (already decomposed into
components), whether it is a directory entry (`ZipFile::is_dir`), and its
decompressed bytes. -/
structure ZipEntry where
  path : List PathPart
  isDir : Bool
  data : List Nat
deriving DecidableEq, Repr

/-- The depth loop of `ZipFile::enclosed_name`: walks the components keeping a
running depth; `..` at depth zero and absolute components reject the path
(`checked_sub` returning `None`). -/
def enclosedDepth : Nat → List PathPart → Option Nat
  | d, [] => some d
  | d, .normal _ :: rest => enclosedDepth (d + 1) rest
  | d, .curDir :: rest => enclosedDepth d rest
  | d, .parentDir :: rest => if d = 0 then none else enclosedDepth (d - 1) rest
  | _, .rootDir :: _ => none

/-- `ZipFile::enclosed_name`: returns the entry's path unchanged when the
depth check passes, `none` when the path is absolute or escapes via `..`. -/
def enclosed_name (p : List PathPart) : Option (List PathPart) :=
  if (enclosedDepth 0 p).isSome then some p else none

/-- OS-level resolution of joining a component path onto an absolute base
path: normal names descend, `.` is a no-op, `..` pops one name (staying put at
the filesystem root), and an absolute component restarts from the root.  This
is what the filesystem does with the `Path::join` result. -/
def resolveFrom (acc : List String) : List PathPart → List String
  | [] => acc
  | .normal s :: rest => resolveFrom (acc ++ [s]) rest
  | .curDir :: rest => resolveFrom acc rest
  | .parentDir :: rest => resolveFrom acc.dropLast rest
  | .rootDir :: rest => resolveFrom [] rest

/-- The filesystem state: directory paths, file paths with contents (most
recent write first, lookup takes the first hit), and the fault set of paths at
which create operations fail. -/
structure FS where
  dirs : List (List String)
  files : List (List String × List Nat)
  failCreate : List (List String)
deriving DecidableEq, Repr

/-- Directory existence test (`Path::is_dir`). -/
def FS.isDirB (fs : FS) (p : List String) : Bool := fs.dirs.contains p

/-- File existence test. -/
def FS.isFileB (fs : FS) (p : List String) : Bool := (fs.files.lookup p).isSome

/-- Path existence test (`Path::exists`). -/
def FS.existsB (fs : FS) (p : List String) : Bool := fs.isDirB p || fs.isFileB p

/-- All nonempty prefixes of a path, shortest first: the chain of directories
`fs::create_dir_all` has to provide. -/
def pathPrefixes (p : List String) : List (List String) :=
  (List.range p.length).map (fun n => p.take (n + 1))

/-- `fs::create_dir_all`: fails at the first ancestor (shortest first) that is
a file or in the fault set, otherwise records every missing ancestor as a
directory.  The empty path succeeds with no effect, as in the standard
library. -/
def FS.createDirAll (fs : FS) (p : List String) : Except (List String) FS :=
  match (pathPrefixes p).find? (fun q => fs.failCreate.contains q || fs.isFileB q) with
  | some q => .error q
  | none => .ok { fs with dirs := fs.dirs ++ (pathPrefixes p).filter (fun q => decide (q ∉ fs.dirs)) }

/-- `fs::File::create` followed by `io::copy`: truncates/creates the file at
`p` with the given contents; fails if `p` is in the fault set, is an existing
directory, or its parent directory does not exist. -/
def FS.writeFile (fs : FS) (p : List String) (data : List Nat) : Except (List String) FS :=
  if fs.failCreate.contains p || fs.isDirB p || !(p.dropLast.isEmpty || fs.isDirB p.dropLast) then
    .error p
  else
    .ok { fs with files := (p, data) :: fs.files }

/-- What the extraction loop body does for one entry once its destination is
known: `none` data creates the directory, `some` data creates the parent chain
and writes the file.  On failure the state reached so far is returned with the
offending path, mirroring the early `return Err(e.into())` of both loops. -/
def writeEntry (fs : FS) (dest : List String) (payload : Option (List Nat)) :
    Except (FS × List String) FS :=
  match payload with
  | none =>
    match fs.createDirAll dest with
    | .error q => .error (fs, q)
    | .ok fs' => .ok fs'
  | some data =>
    match fs.createDirAll dest.dropLast with
    | .error q => .error (fs, q)
    | .ok fs1 =>
      match fs1.writeFile dest data with
      | .error q => .error (fs1, q)
      | .ok fs2 => .ok fs2

/-- A per-entry plan: `none` skips the entry (`continue`), otherwise gives the
destination path and, for file entries, the bytes to write. -/
def ExtractPlan : Type := ZipEntry → Option (List String × Option (List Nat))

/-- One iteration of an extraction loop under a plan. -/
def extractStep (plan : ExtractPlan) (fs : FS) (e : ZipEntry) : Except (FS × List String) FS :=
  match plan e with
  | none => .ok fs
  | some (dest, payload) => writeEntry fs dest payload

/-- The shared extraction loop of both installers: entries in archive storage
order, aborting at the first I/O failure. -/
def extractLoop (plan : ExtractPlan) : FS → List ZipEntry → Except (FS × List String) FS
  | fs, [] => .ok fs
  | fs, e :: rest =>
    match extractStep plan fs e with
    | .error p => .error p
    | .ok fs' => extractLoop plan fs' rest

/-- The per-entry logic of `install_ue4ss` (lines 20-39 of `core.rs`): the
`enclosed_name` check, the case-insensitive `UE4SS` first-component filter,
the strip of that component, the empty-relative-path skip, and the join onto
`target_dir`. -/
def uePlan (target_dir : List String) (e : ZipEntry) :
    Option (List String × Option (List Nat)) :=
  match enclosed_name e.path with
  | none => none
  | some outpath =>
    match outpath with
    | [] => none
    | first :: rest =>
      if asciiLower first.osStr ≠ "ue4ss" then none
      else if rest = [] then none
      else some (resolveFrom target_dir rest, if e.isDir then none else some e.data)

/-- The extraction loop of `install_ue4ss`, given the entries of the already
downloaded and opened archive. -/
def install_ue4ss (target_dir : List String) (fs : FS) (entries : List ZipEntry) :
    Except (FS × List String) FS :=
  extractLoop (uePlan target_dir) fs entries

/-- The per-entry logic of `install_mod_from_zip` (lines 100-107 of
`core.rs`): the `enclosed_name` check and the join of the unchanged internal
path onto the Mods directory. -/
def modPlan (mods_dir : List String) (e : ZipEntry) :
    Option (List String × Option (List Nat)) :=
  match enclosed_name e.path with
  | none => none
  | some outpath => some (resolveFrom mods_dir outpath, if e.isDir then none else some e.data)

/-- `install_mod_from_zip`, given the entries of the already opened archive:
creates the Mods directory when absent, then runs the extraction loop. -/
def install_mod_from_zip (win64_dir : List String) (fs : FS) (entries : List ZipEntry) :
    Except (FS × List String) FS :=
  let mods_dir := win64_dir ++ ["Mods"]
  match (if fs.existsB mods_dir then .ok fs else
      match fs.createDirAll mods_dir with
      | .error q => .error (fs, q)
      | .ok fs' => .ok fs' : Except (FS × List String) FS) with
  | .error p => .error p
  | .ok fs1 => extractLoop (modPlan mods_dir) fs1 entries

/-- The state a finished operation leaves on disk, whether it succeeded or
aborted with an error. -/
def afterFS : Except (FS × List String) FS → FS
  | .ok fs => fs
  | .error (fs, _) => fs

/-- The names `fs::read_dir p` yields: last components of recorded directories
and files whose parent is `p`, each child once. -/
def FS.childNames (fs : FS) (p : List String) : List String :=
  ((fs.dirs ++ fs.files.map Prod.fst).filterMap
    (fun q => if q.dropLast = p then q.getLast? else none)).dedup

/-- `list_installed_mods`: if the Mods directory exists and is a directory,
the names of its immediate children that are directories; otherwise the empty
list.  Never an error in the fault-free read model. -/
def list_installed_mods (win64_dir : List String) (fs : FS) :
    Except (List String) (List String) :=
  let mods_path := win64_dir ++ ["Mods"]
  if fs.existsB mods_path && fs.isDirB mods_path then
    .ok ((fs.childNames mods_path).filter (fun n => fs.isDirB (mods_path ++ [n])))
  else
    .ok []

/-- Fuel-bounded model of the `walkdir` traversal: yields the visited path,
then recurses through the children of directories. -/
def FS.walk (fs : FS) : Nat → List String → List (List String)
  | 0, p => [p]
  | fuel + 1, p =>
    p :: (if fs.isDirB p then
      (fs.childNames p).flatMap (fun n => fs.walk fuel (p ++ [n]))
    else [])

/-- Fuel large enough to exhaust every recorded path. -/
def FS.depthBound (fs : FS) : Nat :=
  ((fs.dirs ++ fs.files.map Prod.fst).map List.length).foldr Nat.max 0 + 1

/-- `Path::strip_prefix(root).unwrap_or(path)` on component lists. -/
def stripRoot (root q : List String) : List String :=
  if root <+: q then q.drop root.length else q

/-- The relative directory paths `list_all_files_and_dirs` records, in
traversal order: directories of the walk other than the root itself. -/
def listAllRel (fs : FS) (root : List String) : List (List String) :=
  (fs.walk fs.depthBound root).filterMap (fun q =>
    if fs.isDirB q then
      (fun rel => if rel.isEmpty then none else some rel) (stripRoot root q)
    else none)

/-- `list_all_files_and_dirs`: empty on a nonexistent root, otherwise the walk
restricted to directories, as displayed relative paths.  Never an error in the
fault-free read model. -/
def list_all_files_and_dirs (fs : FS) (root : List String) :
    Except (List String) (List String) :=
  if fs.existsB root then
    .ok ((listAllRel fs root).map (fun rel => String.intercalate "/" rel))
  else
    .ok []

/-- The file writes an extraction loop performs under a plan, in order:
destination and bytes of each planned file entry. -/
def planWrites (plan : ExtractPlan) (es : List ZipEntry) : List (List String × List Nat) :=
  es.filterMap (fun e =>
    match plan e with
    | some (dest, some d) => some (dest, d)
    | _ => none)

/-- Layering of an optional write over previous content: the write wins. -/
def overlay (w o : Option (List Nat)) : Option (List Nat) :=
  match w with
  | some d => some d
  | none => o

/-- The content a sequence of writes leaves at a path: the last write to it,
if any. -/
def lastWrite : List (List String × List Nat) → List String → Option (List Nat)
  | [], _ => none
  | w :: ws, p => overlay (lastWrite ws p) (if p = w.1 then some w.2 else none)

/-- All directory paths an extraction loop creates under a plan: the ancestor
chains of directory-entry destinations and of file-entry parents. -/
def planDirs (plan : ExtractPlan) (es : List ZipEntry) : List (List String) :=
  es.flatMap (fun e =>
    match plan e with
    | none => []
    | some (dest, none) => pathPrefixes dest
    | some (dest, some _) => pathPrefixes dest.dropLast)

example : enclosed_name [.parentDir, .parentDir, .normal "escape.txt"] = none := by decide

example : enclosed_name [.normal "UE4SS", .parentDir, .normal "evil.txt"] =
    some [.normal "UE4SS", .parentDir, .normal "evil.txt"] := by decide

example : uePlan ["g", "W"] ⟨[.normal "UE4SS", .parentDir, .normal "evil.txt"], false, [7]⟩ =
    some (["g", "evil.txt"], some [7]) := by decide

example : modPlan ["g", "W", "Mods"] ⟨[.normal "A", .normal "x.pak"], false, [1, 2]⟩ =
    some (["g", "W", "Mods", "A", "x.pak"], some [1, 2]) := by decide

example :
    install_mod_from_zip ["g"] ⟨[["g"]], [], []⟩
      [⟨[.normal "A", .normal "x.pak"], false, [1, 2]⟩] =
    .ok ⟨[["g"], ["g", "Mods"], ["g", "Mods", "A"]], [(["g", "Mods", "A", "x.pak"], [1, 2])], []⟩ := by
  rfl

example :
    list_installed_mods ["g"] ⟨[["g"], ["g", "Mods"], ["g", "Mods", "A"]],
      [(["g", "Mods", "z.txt"], [])], []⟩ = .ok ["A"] := by rfl

example :
    list_all_files_and_dirs ⟨[["r"], ["r", "a"], ["r", "a", "b"], ["r", "c"]], [], []⟩ ["r"] =
    .ok ["a", "a/b", "c"] := by rfl

theorem takeIsPre {α : Type} (n : Nat) (l : List α) : l.take n <+: l :=
  ⟨l.drop n, List.take_append_drop n l⟩

theorem preTake {α : Type} {a c : List α} (h : a <+: c) : c.take a.length = a := by
  obtain ⟨u, hu⟩ := h
  rw [← hu]
  exact List.take_left a u

theorem preExt {α : Type} {a b : List α} (c : List α) (h : a <+: b) : a <+: b ++ c := by
  obtain ⟨u, hu⟩ := h
  exact ⟨u ++ c, by rw [← List.append_assoc, hu]⟩

theorem preComparable {α : Type} {a b c : List α} (ha : a <+: c) (hb : b <+: c) :
    a <+: b ∨ b <+: a := by
  rcases Nat.le_total a.length b.length with h | h
  · left
    have hb' : b.take a.length = a := by
      conv_lhs => rw [← preTake hb]
      rw [List.take_take, Nat.min_eq_left h, preTake ha]
    exact hb' ▸ takeIsPre a.length b
  · right
    have ha' : a.take b.length = b := by
      conv_lhs => rw [← preTake ha]
      rw [List.take_take, Nat.min_eq_left h, preTake hb]
    exact ha' ▸ takeIsPre b.length a

theorem dropLastPre {α : Type} (l : List α) : l.dropLast <+: l := by
  rw [List.dropLast_eq_take]
  exact takeIsPre _ l

theorem mem_pathPrefixes {q r : List String} : q ∈ pathPrefixes r ↔ (q <+: r ∧ q ≠ []) := by
  unfold pathPrefixes
  simp only [List.mem_map, List.mem_range]
  constructor
  · rintro ⟨n, hn, rfl⟩
    refine ⟨takeIsPre _ _, ?_⟩
    cases r with
    | nil => simp at hn
    | cons x rs => simp [List.take]
  · rintro ⟨hpre, hne⟩
    have hlen : 0 < q.length := List.length_pos.mpr hne
    have hle : q.length ≤ r.length := hpre.length_le
    refine ⟨q.length - 1, by omega, ?_⟩
    have : q.length - 1 + 1 = q.length := by omega
    rw [this, preTake hpre]

theorem createDirAll_ok {fs : FS} {p : List String} {fs' : FS}
    (h : fs.createDirAll p = .ok fs') :
    fs'.files = fs.files ∧ fs'.failCreate = fs.failCreate ∧
      ∀ q, q ∈ fs'.dirs ↔ (q ∈ fs.dirs ∨ q ∈ pathPrefixes p) := by
  unfold FS.createDirAll at h
  cases hf : (pathPrefixes p).find? (fun q => fs.failCreate.contains q || fs.isFileB q) with
  | some q => rw [hf] at h; cases h
  | none =>
    rw [hf] at h
    cases h
    refine ⟨rfl, rfl, fun q => ?_⟩
    simp only [List.mem_append, List.mem_filter, decide_eq_true_eq]
    by_cases hq : q ∈ fs.dirs <;> tauto

theorem writeFile_ok {fs : FS} {p : List String} {data : List Nat} {fs' : FS}
    (h : fs.writeFile p data = .ok fs') :
    fs'.dirs = fs.dirs ∧ fs'.failCreate = fs.failCreate ∧ fs'.files = (p, data) :: fs.files := by
  unfold FS.writeFile at h
  split at h
  · cases h
  · cases h
    exact ⟨rfl, rfl, rfl⟩

theorem writeEntry_none_ok {fs : FS} {dest : List String} {fs' : FS}
    (h : writeEntry fs dest none = .ok fs') :
    fs'.files = fs.files ∧ fs'.failCreate = fs.failCreate ∧
      ∀ q, q ∈ fs'.dirs ↔ (q ∈ fs.dirs ∨ q ∈ pathPrefixes dest) := by
  unfold writeEntry at h
  cases hc : fs.createDirAll dest with
  | error q => rw [hc] at h; cases h
  | ok fs1 =>
    rw [hc] at h
    cases h
    exact createDirAll_ok hc

theorem writeEntry_some_ok {fs : FS} {dest : List String} {d : List Nat} {fs' : FS}
    (h : writeEntry fs dest (some d) = .ok fs') :
    fs'.files = (dest, d) :: fs.files ∧ fs'.failCreate = fs.failCreate ∧
      ∀ q, q ∈ fs'.dirs ↔ (q ∈ fs.dirs ∨ q ∈ pathPrefixes dest.dropLast) := by
  unfold writeEntry at h
  dsimp only at h
  cases hc : fs.createDirAll dest.dropLast with
  | error q => rw [hc] at h; cases h
  | ok fs1 =>
    rw [hc] at h
    dsimp only at h
    cases hw : fs1.writeFile dest d with
    | error q => rw [hw] at h; cases h
    | ok fs2 =>
      rw [hw] at h
      dsimp only at h
      cases h
      obtain ⟨hcf, hcc, hcd⟩ := createDirAll_ok hc
      obtain ⟨hwd, hwc, hwf⟩ := writeFile_ok hw
      refine ⟨by rw [hwf, hcf], by rw [hwc, hcc], fun q => ?_⟩
      rw [hwd]
      exact hcd q

theorem writeEntry_error {fs : FS} {dest : List String} {payload : Option (List Nat)}
    {fs1 : FS} {q : List String} (h : writeEntry fs dest payload = .error (fs1, q)) :
    fs1.files = fs.files ∧
      ∀ r, r ∈ fs1.dirs → (r ∈ fs.dirs ∨ r ∈ pathPrefixes dest ∨ r ∈ pathPrefixes dest.dropLast) := by
  unfold writeEntry at h
  cases payload with
  | none =>
    cases hc : fs.createDirAll dest with
    | error q' =>
      rw [hc] at h
      cases h
      exact ⟨rfl, fun r hr => Or.inl hr⟩
    | ok fsx => rw [hc] at h; cases h
  | some d =>
    dsimp only at h
    cases hc : fs.createDirAll dest.dropLast with
    | error q' =>
      rw [hc] at h
      cases h
      exact ⟨rfl, fun r hr => Or.inl hr⟩
    | ok fsx =>
      rw [hc] at h
      dsimp only at h
      cases hw : fsx.writeFile dest d with
      | error q' =>
        rw [hw] at h
        cases h
        obtain ⟨hcf, _, hcd⟩ := createDirAll_ok hc
        exact ⟨hcf, fun r hr => by rcases (hcd r).mp hr with h' | h' <;> simp [h']⟩
      | ok fsy => rw [hw] at h; cases h

theorem writeEntry_error_none {fs : FS} {dest : List String} {fs1 : FS} {q : List String}
    (h : writeEntry fs dest none = .error (fs1, q)) : fs1 = fs := by
  unfold writeEntry at h
  dsimp only at h
  cases hc : fs.createDirAll dest with
  | error q' => rw [hc] at h; cases h; rfl
  | ok fsx => rw [hc] at h; cases h

theorem writeEntry_error_some {fs : FS} {dest : List String} {d : List Nat}
    {fs1 : FS} {q : List String} (h : writeEntry fs dest (some d) = .error (fs1, q)) :
    fs1.files = fs.files ∧
      ∀ r, r ∈ fs1.dirs → (r ∈ fs.dirs ∨ r ∈ pathPrefixes dest.dropLast) := by
  unfold writeEntry at h
  dsimp only at h
  cases hc : fs.createDirAll dest.dropLast with
  | error q' =>
    rw [hc] at h
    cases h
    exact ⟨rfl, fun r hr => Or.inl hr⟩
  | ok fsx =>
    rw [hc] at h
    dsimp only at h
    cases hw : fsx.writeFile dest d with
    | error q' =>
      rw [hw] at h
      cases h
      obtain ⟨hcf, _, hcd⟩ := createDirAll_ok hc
      exact ⟨hcf, fun r hr => (hcd r).mp hr⟩
    | ok fsy => rw [hw] at h; cases h

theorem extractStep_skip {plan : ExtractPlan} {fs : FS} {e : ZipEntry} (h : plan e = none) :
    extractStep plan fs e = .ok fs := by
  unfold extractStep
  rw [h]

theorem extractLoop_skip {plan : ExtractPlan} {fs : FS} {e : ZipEntry} {rest : List ZipEntry}
    (h : plan e = none) :
    extractLoop plan fs (e :: rest) = extractLoop plan fs rest := by
  simp only [extractLoop, extractStep_skip h]

theorem extractLoop_abort {plan : ExtractPlan} {fs : FS} {e : ZipEntry} {rest : List ZipEntry}
    {x : FS × List String} (h : extractStep plan fs e = .error x) :
    extractLoop plan fs (e :: rest) = .error x := by
  simp only [extractLoop, h]

theorem extractLoop_step_ok {plan : ExtractPlan} {fs : FS} {e : ZipEntry} {rest : List ZipEntry}
    {fs1 : FS} (h : extractStep plan fs e = .ok fs1) :
    extractLoop plan fs (e :: rest) = extractLoop plan fs1 rest := by
  simp only [extractLoop, h]

theorem extractLoop_append_ok {plan : ExtractPlan} :
    ∀ {pre : List ZipEntry} {fs fs' : FS}, extractLoop plan fs pre = .ok fs' →
      ∀ post, extractLoop plan fs (pre ++ post) = extractLoop plan fs' post := by
  intro pre
  induction pre with
  | nil =>
    intro fs fs' h post
    cases h
    simp [extractLoop]
  | cons e t ih =>
    intro fs fs' h post
    cases hs : extractStep plan fs e with
    | error x => rw [extractLoop_abort hs] at h; cases h
    | ok fs1 =>
      rw [extractLoop_step_ok hs] at h
      rw [List.cons_append, extractLoop_step_ok hs]
      exact ih h post

theorem extractLoop_erase {plan : ExtractPlan} {e : ZipEntry} (h : plan e = none) :
    ∀ (pre : List ZipEntry) (fs : FS) (post : List ZipEntry),
      extractLoop plan fs (pre ++ e :: post) = extractLoop plan fs (pre ++ post) := by
  intro pre
  induction pre with
  | nil =>
    intro fs post
    simpa using extractLoop_skip h
  | cons a t ih =>
    intro fs post
    cases hs : extractStep plan fs a with
    | error x => simp [List.cons_append, extractLoop_abort hs]
    | ok fs1 =>
      simp only [List.cons_append, extractLoop_step_ok hs]
      exact ih fs1 post

theorem lookup_cons_file (k p : List String) (v : List Nat) (l : List (List String × List Nat)) :
    ((k, v) :: l).lookup p = if p = k then some v else l.lookup p := by
  by_cases h : p = k
  · simp [List.lookup, h]
  · have hb : (p == k) = false := beq_eq_false_iff_ne.mpr h
    simp [List.lookup, hb, h]

theorem extractLoop_ok_files {plan : ExtractPlan} :
    ∀ {es : List ZipEntry} {fs fs' : FS}, extractLoop plan fs es = .ok fs' →
      ∀ p, fs'.files.lookup p = overlay (lastWrite (planWrites plan es) p) (fs.files.lookup p) := by
  intro es
  induction es with
  | nil =>
    intro fs fs' h p
    cases h
    simp [planWrites, lastWrite, overlay]
  | cons e t ih =>
    intro fs fs' h p
    cases hp : plan e with
    | none =>
      rw [extractLoop_skip hp] at h
      have hW : planWrites plan (e :: t) = planWrites plan t := by
        simp [planWrites, List.filterMap_cons, hp]
      rw [hW]
      exact ih h p
    | some pair =>
      obtain ⟨dest, payload⟩ := pair
      have hs : extractStep plan fs e = writeEntry fs dest payload := by
        simp [extractStep, hp]
      cases hw : writeEntry fs dest payload with
      | error x =>
        rw [extractLoop_abort (hs.trans hw)] at h
        cases h
      | ok fs1 =>
        rw [extractLoop_step_ok (hs.trans hw)] at h
        cases payload with
        | none =>
          have hW : planWrites plan (e :: t) = planWrites plan t := by
            simp [planWrites, List.filterMap_cons, hp]
          rw [hW]
          have hfiles := (writeEntry_none_ok hw).1
          have := ih h p
          rwa [hfiles] at this
        | some d =>
          have hW : planWrites plan (e :: t) = (dest, d) :: planWrites plan t := by
            simp [planWrites, List.filterMap_cons, hp]
          rw [hW]
          have hfiles := (writeEntry_some_ok hw).1
          have hih := ih h p
          rw [hfiles, lookup_cons_file] at hih
          rw [hih, lastWrite]
          cases hL : lastWrite (planWrites plan t) p <;>
            by_cases hpd : p = dest <;>
              simp [overlay, hL, hpd]

theorem extractLoop_ok_dirs {plan : ExtractPlan} :
    ∀ {es : List ZipEntry} {fs fs' : FS}, extractLoop plan fs es = .ok fs' →
      ∀ p, p ∈ fs'.dirs ↔ (p ∈ fs.dirs ∨ p ∈ planDirs plan es) := by
  intro es
  induction es with
  | nil =>
    intro fs fs' h p
    cases h
    simp [planDirs]
  | cons e t ih =>
    intro fs fs' h p
    cases hp : plan e with
    | none =>
      rw [extractLoop_skip hp] at h
      have hD : planDirs plan (e :: t) = planDirs plan t := by
        simp [planDirs, List.flatMap_cons, hp]
      rw [hD]
      exact ih h p
    | some pair =>
      obtain ⟨dest, payload⟩ := pair
      have hs : extractStep plan fs e = writeEntry fs dest payload := by
        simp [extractStep, hp]
      cases hw : writeEntry fs dest payload with
      | error x =>
        rw [extractLoop_abort (hs.trans hw)] at h
        cases h
      | ok fs1 =>
        rw [extractLoop_step_ok (hs.trans hw)] at h
        cases payload with
        | none =>
          have hD : planDirs plan (e :: t) = pathPrefixes dest ++ planDirs plan t := by
            simp [planDirs, List.flatMap_cons, hp]
          rw [hD]
          have hd := (writeEntry_none_ok hw).2.2
          have hih := ih h p
          rw [hih, hd p, List.mem_append]
          tauto
        | some d =>
          have hD : planDirs plan (e :: t) = pathPrefixes dest.dropLast ++ planDirs plan t := by
            simp [planDirs, List.flatMap_cons, hp]
          rw [hD]
          have hd := (writeEntry_some_ok hw).2.2
          have hih := ih h p
          rw [hih, hd p, List.mem_append]
          tauto

theorem extractLoop_afterFS_dirs {plan : ExtractPlan} :
    ∀ {es : List ZipEntry} {fs : FS} (p : List String),
      p ∈ (afterFS (extractLoop plan fs es)).dirs → p ∈ fs.dirs ∨ p ∈ planDirs plan es := by
  intro es
  induction es with
  | nil =>
    intro fs p h
    exact Or.inl h
  | cons e t ih =>
    intro fs p h
    cases hp : plan e with
    | none =>
      rw [extractLoop_skip hp] at h
      have hD : planDirs plan (e :: t) = planDirs plan t := by
        simp [planDirs, List.flatMap_cons, hp]
      rw [hD]
      exact ih p h
    | some pair =>
      obtain ⟨dest, payload⟩ := pair
      have hs : extractStep plan fs e = writeEntry fs dest payload := by
        simp [extractStep, hp]
      have hDsub : ∀ r, (r ∈ pathPrefixes dest ∨ r ∈ pathPrefixes dest.dropLast) →
          (payload = none → r ∈ planDirs plan (e :: t)) ∧
          (∀ d, payload = some d → r ∈ pathPrefixes dest.dropLast →
            r ∈ planDirs plan (e :: t)) := by
        intro r hr
        constructor
        · rintro rfl
          have hD : planDirs plan (e :: t) = pathPrefixes dest ++ planDirs plan t := by
            simp [planDirs, List.flatMap_cons, hp]
          rw [hD, List.mem_append]
          rcases hr with h' | h'
          · exact Or.inl h'
          · left
            rw [mem_pathPrefixes] at h' ⊢
            exact ⟨h'.1.trans (dropLastPre dest), h'.2⟩
        · rintro d rfl h'
          have hD : planDirs plan (e :: t) = pathPrefixes dest.dropLast ++ planDirs plan t := by
            simp [planDirs, List.flatMap_cons, hp]
          rw [hD, List.mem_append]
          exact Or.inl h'
      cases hw : writeEntry fs dest payload with
      | error x =>
        obtain ⟨fs1, q⟩ := x
        rw [extractLoop_abort (hs.trans hw)] at h
        cases payload with
        | none =>
          have := writeEntry_error_none hw
          subst this
          exact Or.inl h
        | some d =>
          rcases (writeEntry_error_some hw).2 p h with h' | h'
          · exact Or.inl h'
          · exact Or.inr ((hDsub p (Or.inr h')).2 d rfl h')
      | ok fs1 =>
        rw [extractLoop_step_ok (hs.trans hw)] at h
        rcases ih p h with h' | h'
        · cases payload with
          | none =>
            rcases ((writeEntry_none_ok hw).2.2 p).mp h' with h'' | h''
            · exact Or.inl h''
            · exact Or.inr ((hDsub p (Or.inl h'')).1 rfl)
          | some d =>
            rcases ((writeEntry_some_ok hw).2.2 p).mp h' with h'' | h''
            · exact Or.inl h''
            · exact Or.inr ((hDsub p (Or.inr h'')).2 d rfl h'')
        · right
          cases payload with
          | none =>
            have hD : planDirs plan (e :: t) = pathPrefixes dest ++ planDirs plan t := by
              simp [planDirs, List.flatMap_cons, hp]
            rw [hD, List.mem_append]
            exact Or.inr h'
          | some d =>
            have hD : planDirs plan (e :: t) = pathPrefixes dest.dropLast ++ planDirs plan t := by
              simp [planDirs, List.flatMap_cons, hp]
            rw [hD, List.mem_append]
            exact Or.inr h'

theorem extractLoop_afterFS_files {plan : ExtractPlan} :
    ∀ {es : List ZipEntry} {fs : FS} (pr : List String × List Nat),
      pr ∈ (afterFS (extractLoop plan fs es)).files → pr ∈ fs.files ∨ pr ∈ planWrites plan es := by
  intro es
  induction es with
  | nil =>
    intro fs pr h
    exact Or.inl h
  | cons e t ih =>
    intro fs pr h
    cases hp : plan e with
    | none =>
      rw [extractLoop_skip hp] at h
      have hW : planWrites plan (e :: t) = planWrites plan t := by
        simp [planWrites, List.filterMap_cons, hp]
      rw [hW]
      exact ih pr h
    | some pair =>
      obtain ⟨dest, payload⟩ := pair
      have hs : extractStep plan fs e = writeEntry fs dest payload := by
        simp [extractStep, hp]
      cases hw : writeEntry fs dest payload with
      | error x =>
        obtain ⟨fs1, q⟩ := x
        rw [extractLoop_abort (hs.trans hw)] at h
        cases payload with
        | none =>
          have := writeEntry_error_none hw
          subst this
          exact Or.inl h
        | some d =>
          have h' : pr ∈ fs1.files := h
          rw [(writeEntry_error_some hw).1] at h'
          exact Or.inl h'
      | ok fs1 =>
        rw [extractLoop_step_ok (hs.trans hw)] at h
        cases payload with
        | none =>
          have hW : planWrites plan (e :: t) = planWrites plan t := by
            simp [planWrites, List.filterMap_cons, hp]
          rw [hW]
          rcases ih pr h with h' | h'
          · rw [(writeEntry_none_ok hw).1] at h'
            exact Or.inl h'
          · exact Or.inr h'
        | some d =>
          have hW : planWrites plan (e :: t) = (dest, d) :: planWrites plan t := by
            simp [planWrites, List.filterMap_cons, hp]
          rw [hW]
          rcases ih pr h with h' | h'
          · rw [(writeEntry_some_ok hw).1] at h'
            rcases List.mem_cons.mp h' with h'' | h''
            · exact Or.inr (h'' ▸ List.mem_cons_self _ _)
            · exact Or.inl h''
          · exact Or.inr (List.mem_cons_of_mem _ h')

theorem resolveFrom_keeps :
    ∀ (cs : List PathPart) (d : Nat) (base extra : List String),
      extra.length = d → (enclosedDepth d cs).isSome = true →
      base <+: resolveFrom (base ++ extra) cs := by
  intro cs
  induction cs with
  | nil =>
    intro d base extra _ _
    exact ⟨extra, rfl⟩
  | cons c rest ih =>
    intro d base extra hlen h
    cases c with
    | normal s =>
      simp only [resolveFrom, List.append_assoc]
      exact ih (d + 1) base (extra ++ [s]) (by simp [hlen]) (by simpa [enclosedDepth] using h)
    | curDir =>
      simp only [resolveFrom]
      exact ih d base extra hlen (by simpa [enclosedDepth] using h)
    | parentDir =>
      have hd : d ≠ 0 := by
        intro h0
        rw [h0] at h
        simp [enclosedDepth] at h
      have hne : extra ≠ [] := by
        intro h0
        rw [h0] at hlen
        simp at hlen
        omega
      simp only [resolveFrom]
      rw [List.dropLast_append_of_ne_nil base hne]
      refine ih (d - 1) base extra.dropLast ?_ (by simpa [enclosedDepth, hd] using h)
      rw [List.length_dropLast, hlen]
    | rootDir =>
      simp [enclosedDepth] at h

theorem resolveKeep0 {base : List String} {cs : List PathPart}
    (h : (enclosedDepth 0 cs).isSome = true) : base <+: resolveFrom base cs := by
  have := resolveFrom_keeps cs 0 base [] rfl h
  simpa using this

theorem enclosed_name_some {p q : List PathPart} (h : enclosed_name p = some q) :
    q = p ∧ (enclosedDepth 0 p).isSome = true := by
  unfold enclosed_name at h
  split at h
  · cases h
    exact ⟨rfl, by assumption⟩
  · cases h

theorem modPlan_none {mods : List String} {e : ZipEntry} (h : enclosed_name e.path = none) :
    modPlan mods e = none := by
  unfold modPlan
  rw [h]

theorem modPlan_some {mods : List String} {e : ZipEntry} {dest : List String}
    {payload : Option (List Nat)} (h : modPlan mods e = some (dest, payload)) :
    dest = resolveFrom mods e.path ∧ payload = (if e.isDir then none else some e.data) ∧
      mods <+: dest := by
  unfold modPlan at h
  cases he : enclosed_name e.path with
  | none => rw [he] at h; cases h
  | some outpath =>
    rw [he] at h
    dsimp only at h
    obtain ⟨hq, hd⟩ := enclosed_name_some he
    subst hq
    injection h with h1
    injection h1 with h2 h3
    exact ⟨h2.symm, h3.symm, h2 ▸ resolveKeep0 hd⟩

theorem uePlan_none_of_enclosed {t : List String} {e : ZipEntry}
    (h : enclosed_name e.path = none) : uePlan t e = none := by
  unfold uePlan
  rw [h]

theorem uePlan_none_of_filtered {t : List String} {e : ZipEntry}
    (h : ∀ first rest, e.path = first :: rest → asciiLower first.osStr ≠ "ue4ss") :
    uePlan t e = none := by
  unfold uePlan
  cases he : enclosed_name e.path with
  | none => rfl
  | some outpath =>
    obtain ⟨hq, _⟩ := enclosed_name_some he
    subst hq
    cases hp : e.path with
    | nil => rfl
    | cons first rest =>
      have := h first rest hp
      simp [this]

theorem uePlan_some {t : List String} {e : ZipEntry} {dest : List String}
    {payload : Option (List Nat)} (h : uePlan t e = some (dest, payload)) :
    ∃ first rest, e.path = first :: rest ∧ asciiLower first.osStr = "ue4ss" ∧ rest ≠ [] ∧
      dest = resolveFrom t rest ∧ payload = (if e.isDir then none else some e.data) ∧
      (enclosedDepth 0 e.path).isSome = true := by
  unfold uePlan at h
  cases he : enclosed_name e.path with
  | none => rw [he] at h; cases h
  | some outpath =>
    rw [he] at h
    obtain ⟨hq, hd⟩ := enclosed_name_some he
    subst hq
    cases hp : e.path with
    | nil => rw [hp] at h; cases h
    | cons first rest =>
      rw [hp] at h
      dsimp only at h
      by_cases hue : asciiLower first.osStr = "ue4ss"
      · rw [if_neg (by simpa using hue)] at h
        by_cases hrest : rest = []
        · rw [if_pos hrest] at h
          cases h
        · rw [if_neg hrest] at h
          injection h with h1
          injection h1 with h2 h3
          exact ⟨first, rest, rfl, hue, hrest, h2.symm, h3.symm, hp ▸ hd⟩
      · rw [if_pos (by simpa using hue)] at h
        cases h

theorem uePlan_dest_keeps {t : List String} {e : ZipEntry} {dest : List String}
    {payload : Option (List Nat)} (h : uePlan t e = some (dest, payload)) :
    t.dropLast <+: dest := by
  obtain ⟨first, rest, hpath, hue, _, hdest, _, hdep⟩ := uePlan_some h
  have hfirst : ∃ s, first = PathPart.normal s := by
    cases first with
    | normal s => exact ⟨s, rfl⟩
    | parentDir => exact absurd hue (by decide)
    | curDir => exact absurd hue (by decide)
    | rootDir => exact absurd hue (by decide)
  obtain ⟨s, rfl⟩ := hfirst
  have hdep1 : (enclosedDepth 1 rest).isSome = true := by
    rw [hpath] at hdep
    simpa [enclosedDepth] using hdep
  subst hdest
  by_cases ht : t = []
  · subst ht
    exact ⟨resolveFrom [] rest, rfl⟩
  · have hsplit : t.dropLast ++ [t.getLast ht] = t := List.dropLast_append_getLast ht
    have h2 := resolveFrom_keeps rest 1 t.dropLast [t.getLast ht] rfl hdep1
    rwa [hsplit] at h2

theorem install_mod_unfold (w : List String) (fs : FS) (entries : List ZipEntry) :
    install_mod_from_zip w fs entries =
      if fs.existsB (w ++ ["Mods"]) then extractLoop (modPlan (w ++ ["Mods"])) fs entries
      else
        match fs.createDirAll (w ++ ["Mods"]) with
        | .error q => .error (fs, q)
        | .ok fs1 => extractLoop (modPlan (w ++ ["Mods"])) fs1 entries := by
  unfold install_mod_from_zip
  dsimp only
  by_cases hex : fs.existsB (w ++ ["Mods"]) = true
  · rw [if_pos hex, if_pos hex]
  · rw [if_neg hex, if_neg hex]
    cases hc : fs.createDirAll (w ++ ["Mods"]) <;> rfl

theorem install_mod_ok_files {w : List String} {fs : FS} {es : List ZipEntry} {fs' : FS}
    (h : install_mod_from_zip w fs es = .ok fs') :
    ∀ p, fs'.files.lookup p =
      overlay (lastWrite (planWrites (modPlan (w ++ ["Mods"])) es) p) (fs.files.lookup p) := by
  rw [install_mod_unfold] at h
  by_cases hex : fs.existsB (w ++ ["Mods"]) = true
  · rw [if_pos hex] at h
    exact extractLoop_ok_files h
  · rw [if_neg hex] at h
    cases hc : fs.createDirAll (w ++ ["Mods"]) with
    | error q => rw [hc] at h; cases h
    | ok fs1 =>
      rw [hc] at h
      dsimp only at h
      intro p
      rw [extractLoop_ok_files h p, (createDirAll_ok hc).1]

theorem install_mod_ok_dirs {w : List String} {fs : FS} {es : List ZipEntry} {fs' : FS}
    (h : install_mod_from_zip w fs es = .ok fs') :
    ∀ p, p ∈ fs'.dirs ↔ (p ∈ fs.dirs ∨
      (fs.existsB (w ++ ["Mods"]) = false ∧ p ∈ pathPrefixes (w ++ ["Mods"])) ∨
      p ∈ planDirs (modPlan (w ++ ["Mods"])) es) := by
  rw [install_mod_unfold] at h
  by_cases hex : fs.existsB (w ++ ["Mods"]) = true
  · rw [if_pos hex] at h
    intro p
    rw [extractLoop_ok_dirs h p, hex]
    simp
  · rw [if_neg hex] at h
    have hex' : fs.existsB (w ++ ["Mods"]) = false := by
      simpa using hex
    cases hc : fs.createDirAll (w ++ ["Mods"]) with
    | error q => rw [hc] at h; cases h
    | ok fs1 =>
      rw [hc] at h
      dsimp only at h
      intro p
      rw [extractLoop_ok_dirs h p, (createDirAll_ok hc).2.2 p, hex']
      simp only [true_and]
      tauto

theorem install_mod_afterFS_dirs {w : List String} {fs : FS} {es : List ZipEntry} :
    ∀ p, p ∈ (afterFS (install_mod_from_zip w fs es)).dirs →
      p ∈ fs.dirs ∨ p ∈ pathPrefixes (w ++ ["Mods"]) ∨
        p ∈ planDirs (modPlan (w ++ ["Mods"])) es := by
  rw [install_mod_unfold]
  by_cases hex : fs.existsB (w ++ ["Mods"]) = true
  · rw [if_pos hex]
    intro p hp
    rcases extractLoop_afterFS_dirs p hp with h | h
    · exact Or.inl h
    · exact Or.inr (Or.inr h)
  · rw [if_neg hex]
    cases hc : fs.createDirAll (w ++ ["Mods"]) with
    | error q =>
      intro p hp
      exact Or.inl hp
    | ok fs1 =>
      intro p hp
      rcases extractLoop_afterFS_dirs p hp with h | h
      · rcases ((createDirAll_ok hc).2.2 p).mp h with h' | h'
        · exact Or.inl h'
        · exact Or.inr (Or.inl h')
      · exact Or.inr (Or.inr h)

theorem install_mod_afterFS_files {w : List String} {fs : FS} {es : List ZipEntry} :
    ∀ pr, pr ∈ (afterFS (install_mod_from_zip w fs es)).files →
      pr ∈ fs.files ∨ pr ∈ planWrites (modPlan (w ++ ["Mods"])) es := by
  rw [install_mod_unfold]
  by_cases hex : fs.existsB (w ++ ["Mods"]) = true
  · rw [if_pos hex]
    exact fun pr hp => extractLoop_afterFS_files pr hp
  · rw [if_neg hex]
    cases hc : fs.createDirAll (w ++ ["Mods"]) with
    | error q =>
      intro pr hp
      exact Or.inl hp
    | ok fs1 =>
      intro pr hp
      rcases extractLoop_afterFS_files pr hp with h | h
      · rw [(createDirAll_ok hc).1] at h
        exact Or.inl h
      · exact Or.inr h

theorem planWrites_mod_mem {mods : List String} {es : List ZipEntry}
    {pr : List String × List Nat} (h : pr ∈ planWrites (modPlan mods) es) :
    mods <+: pr.1 := by
  unfold planWrites at h
  rw [List.mem_filterMap] at h
  obtain ⟨e, _, he⟩ := h
  cases hm : modPlan mods e with
  | none => rw [hm] at he; cases he
  | some pair =>
    obtain ⟨dest, payload⟩ := pair
    rw [hm] at he
    cases payload with
    | none => dsimp only at he; cases he
    | some d =>
      dsimp only at he
      injection he with he1
      rw [← he1]
      exact (modPlan_some hm).2.2

theorem planDirs_mod_mem {mods : List String} {es : List ZipEntry} {p : List String}
    (h : p ∈ planDirs (modPlan mods) es) :
    p ∈ pathPrefixes mods ∨ mods <+: p := by
  unfold planDirs at h
  rw [List.mem_flatMap] at h
  obtain ⟨e, _, he⟩ := h
  cases hm : modPlan mods e with
  | none => rw [hm] at he; simp at he
  | some pair =>
    obtain ⟨dest, payload⟩ := pair
    rw [hm] at he
    have hdest : mods <+: dest := (modPlan_some hm).2.2
    have hp : p <+: dest ∧ p ≠ [] := by
      cases payload with
      | none =>
        dsimp only at he
        exact mem_pathPrefixes.mp he
      | some d =>
        dsimp only at he
        have := mem_pathPrefixes.mp he
        exact ⟨this.1.trans (dropLastPre dest), this.2⟩
    rcases preComparable hp.1 hdest with h1 | h1
    · exact Or.inl (mem_pathPrefixes.mpr ⟨h1, hp.2⟩)
    · exact Or.inr h1

theorem planWrites_ue_mem {t : List String} {es : List ZipEntry}
    {pr : List String × List Nat} (h : pr ∈ planWrites (uePlan t) es) :
    t.dropLast <+: pr.1 := by
  unfold planWrites at h
  rw [List.mem_filterMap] at h
  obtain ⟨e, _, he⟩ := h
  cases hm : uePlan t e with
  | none => rw [hm] at he; cases he
  | some pair =>
    obtain ⟨dest, payload⟩ := pair
    rw [hm] at he
    cases payload with
    | none => dsimp only at he; cases he
    | some d =>
      dsimp only at he
      injection he with he1
      rw [← he1]
      exact uePlan_dest_keeps hm

theorem planDirs_ue_mem {t : List String} {es : List ZipEntry} {p : List String}
    (h : p ∈ planDirs (uePlan t) es) :
    p ∈ pathPrefixes t ∨ t.dropLast <+: p := by
  unfold planDirs at h
  rw [List.mem_flatMap] at h
  obtain ⟨e, _, he⟩ := h
  cases hm : uePlan t e with
  | none => rw [hm] at he; simp at he
  | some pair =>
    obtain ⟨dest, payload⟩ := pair
    rw [hm] at he
    have hdest : t.dropLast <+: dest := uePlan_dest_keeps hm
    have hp : p <+: dest ∧ p ≠ [] := by
      cases payload with
      | none =>
        dsimp only at he
        exact mem_pathPrefixes.mp he
      | some d =>
        dsimp only at he
        have := mem_pathPrefixes.mp he
        exact ⟨this.1.trans (dropLastPre dest), this.2⟩
    rcases preComparable hp.1 hdest with h1 | h1
    · exact Or.inl (mem_pathPrefixes.mpr ⟨h1.trans (dropLastPre t), hp.2⟩)
    · exact Or.inr h1

theorem isDirB_iff {fs : FS} {q : List String} : fs.isDirB q = true ↔ q ∈ fs.dirs :=
  List.elem_iff

theorem install_mod_exists_after {w : List String} {fs : FS} {es : List ZipEntry} {fs1 : FS}
    (h1 : install_mod_from_zip w fs es = .ok fs1) :
    fs1.existsB (w ++ ["Mods"]) = true := by
  unfold FS.existsB
  cases hex : fs.existsB (w ++ ["Mods"]) with
  | false =>
    have hmem : (w ++ ["Mods"]) ∈ fs1.dirs := by
      rw [install_mod_ok_dirs h1]
      exact Or.inr (Or.inl ⟨hex, mem_pathPrefixes.mpr ⟨⟨[], by simp⟩, by simp⟩⟩)
    rw [Bool.or_eq_true, isDirB_iff]
    exact Or.inl hmem
  | true =>
    unfold FS.existsB at hex
    rw [Bool.or_eq_true] at hex ⊢
    rcases hex with hd | hf
    · left
      rw [isDirB_iff] at hd ⊢
      rw [install_mod_ok_dirs h1]
      exact Or.inl hd
    · right
      unfold FS.isFileB at hf ⊢
      rw [install_mod_ok_files h1]
      cases hW : lastWrite (planWrites (modPlan (w ++ ["Mods"])) es) (w ++ ["Mods"]) <;>
        simp [overlay, hW] at hf ⊢
      exact hf

/-- C1: in `install_mod_from_zip` every archive entry rejected by the
containment check (`enclosed_name`) — an absolute path or a parent-directory
escape such as `../../escape.txt` — is skipped and the loop continues with the
next entry; and, provided the ancestors of `targetDir/Mods` already exist, no
file or directory is ever created outside `targetDir/Mods`: even on an aborted
run, every directory the operation adds lies at or below the Mods directory
and every file it writes lies at or below it. -/
theorem C1_mod_install_containment (win64 : List String) (fs : FS) (entries : List ZipEntry)
    (e : ZipEntry) (rest : List ZipEntry)
    (hpre : ∀ q ∈ pathPrefixes (win64 ++ ["Mods"]), q ∈ fs.dirs)
    (hbad : enclosed_name e.path = none) :
    modPlan (win64 ++ ["Mods"]) e = none ∧
    extractLoop (modPlan (win64 ++ ["Mods"])) fs (e :: rest) =
      extractLoop (modPlan (win64 ++ ["Mods"])) fs rest ∧
    (∀ p, p ∈ (afterFS (install_mod_from_zip win64 fs entries)).dirs →
      p ∈ fs.dirs ∨ (win64 ++ ["Mods"]) <+: p) ∧
    (∀ pr, pr ∈ (afterFS (install_mod_from_zip win64 fs entries)).files →
      pr ∈ fs.files ∨ (win64 ++ ["Mods"]) <+: pr.1) := by
  refine ⟨modPlan_none hbad, extractLoop_skip (modPlan_none hbad), ?_, ?_⟩
  · intro p hp
    rcases install_mod_afterFS_dirs p hp with h | h | h
    · exact Or.inl h
    · exact Or.inl (hpre p h)
    · rcases planDirs_mod_mem h with h' | h'
      · exact Or.inl (hpre p h')
      · exact Or.inr h'
  · intro pr hp
    rcases install_mod_afterFS_files pr hp with h | h
    · exact Or.inl h
    · exact Or.inr (planWrites_mod_mem h)

/-- Witness for C1 at the spec's `../../escape.txt` example. -/
theorem C1_mod_install_containment_witness :
    modPlan (["g", "W"] ++ ["Mods"])
      ⟨[.parentDir, .parentDir, .normal "escape.txt"], false, [1]⟩ = none :=
  (C1_mod_install_containment ["g", "W"] ⟨[["g"], ["g", "W"], ["g", "W", "Mods"]], [], []⟩
    [⟨[.parentDir, .parentDir, .normal "escape.txt"], false, [1]⟩]
    ⟨[.parentDir, .parentDir, .normal "escape.txt"], false, [1]⟩ []
    (by decide) (by decide)).1

/-- C3: every entry whose first path component is not `UE4SS`
(case-insensitively) is skipped entirely by `install_ue4ss`: its plan is
`none`, and the whole run gives the same result as if the entry were absent
from the archive, so nothing derived from it exists under `targetDir`
afterwards. -/
theorem C3_ue4ss_filter_skips (target : List String) (fs : FS) (pre post : List ZipEntry)
    (e : ZipEntry)
    (hne : ∀ first rest, e.path = first :: rest → asciiLower first.osStr ≠ "ue4ss") :
    uePlan target e = none ∧
    install_ue4ss target fs (pre ++ e :: post) = install_ue4ss target fs (pre ++ post) := by
  have h : uePlan target e = none := uePlan_none_of_filtered hne
  exact ⟨h, extractLoop_erase h pre fs post⟩

/-- Witness for C3 on a `Readme.md` entry. -/
theorem C3_ue4ss_filter_skips_witness :
    uePlan ["g", "W"] ⟨[.normal "Readme.md"], false, [2]⟩ = none :=
  (C3_ue4ss_filter_skips ["g", "W"] ⟨[["g"]], [], []⟩ [] []
    ⟨[.normal "Readme.md"], false, [2]⟩
    (by
      rintro first rest h
      injection h with h1 h2
      subst h1
      decide)).1

/-- C9: in both installers' extraction loops a per-entry skip for an unsafe
path is normal control flow — the plan is `none` for both installers and the
loop simply continues with no error — while a step that fails with an I/O
error aborts the whole loop immediately, surfacing that error together with
the filesystem state already reached: entries written before the failure
remain on disk and the remaining entries are never processed (no rollback). -/
theorem C9_skip_is_normal_abort_is_final (win64 target : List String) (fs : FS)
    (e : ZipEntry) (post : List ZipEntry)
    (hbad : enclosed_name e.path = none) :
    modPlan (win64 ++ ["Mods"]) e = none ∧
    uePlan target e = none ∧
    extractLoop (modPlan (win64 ++ ["Mods"])) fs (e :: post) =
      extractLoop (modPlan (win64 ++ ["Mods"])) fs post ∧
    extractLoop (uePlan target) fs (e :: post) = extractLoop (uePlan target) fs post ∧
    (∀ (plan : ExtractPlan) (e2 : ZipEntry) (pre post2 : List ZipEntry) (fs' fs1 : FS)
      (err : List String),
      extractLoop plan fs pre = .ok fs' → extractStep plan fs' e2 = .error (fs1, err) →
      extractLoop plan fs (pre ++ e2 :: post2) = .error (fs1, err)) := by
  refine ⟨modPlan_none hbad, uePlan_none_of_enclosed hbad,
    extractLoop_skip (modPlan_none hbad), extractLoop_skip (uePlan_none_of_enclosed hbad),
    ?_⟩
  intro plan e2 pre post2 fs' fs1 err h1 h2
  rw [extractLoop_append_ok h1, extractLoop_abort h2]

/-- Witness for C9 on an absolute-path entry. -/
theorem C9_skip_is_normal_abort_is_final_witness :
    modPlan (["g"] ++ ["Mods"]) ⟨[.rootDir, .normal "etc"], true, []⟩ = none :=
  (C9_skip_is_normal_abort_is_final ["g"] ["g"] ⟨[["g"]], [], []⟩
    ⟨[.rootDir, .normal "etc"], true, []⟩ [] (by decide)).1

/-- C10 counterexample: the entry `UE4SS/../evil.txt` passes the containment
check (`enclosed_name` accepts it) and the `UE4SS` prefix filter, and
`install_ue4ss` then writes the file outside `targetDir`, at the parent of
`targetDir` — so the loader installer does not guarantee containment within
`targetDir`. -/
theorem C10_loader_containment_counterexample :
    (enclosed_name [.normal "UE4SS", .parentDir, .normal "evil.txt"]).isSome = true ∧
    install_ue4ss ["g", "W"] ⟨[["g"], ["g", "W"]], [], []⟩
        [⟨[.normal "UE4SS", .parentDir, .normal "evil.txt"], false, [7]⟩] =
      .ok ⟨[["g"], ["g", "W"]], [(["g", "evil.txt"], [7])], []⟩ ∧
    ¬ (["g", "W"] <+: ["g", "evil.txt"]) :=
  ⟨by decide, by rfl, by decide⟩

/-- C10 amended: `install_ue4ss` applies the `enclosed_name` containment check
to every entry before the `UE4SS` prefix filter is consulted, and rejected
entries are skipped with no effect on the run; the check, however, only
confines the loader's writes to within the parent directory of `targetDir`
(plus ancestor directories of `targetDir` created on demand), not to
`targetDir` itself: an entry such as `UE4SS/../evil.txt` installs beside
`targetDir`. -/
theorem C10_amended_loader_containment (target : List String) (fs : FS)
    (entries : List ZipEntry) (e : ZipEntry) (pre post : List ZipEntry)
    (hbad : enclosed_name e.path = none) :
    uePlan target e = none ∧
    install_ue4ss target fs (pre ++ e :: post) = install_ue4ss target fs (pre ++ post) ∧
    (∀ p, p ∈ (afterFS (install_ue4ss target fs entries)).dirs →
      p ∈ fs.dirs ∨ p ∈ pathPrefixes target ∨ target.dropLast <+: p) ∧
    (∀ pr, pr ∈ (afterFS (install_ue4ss target fs entries)).files →
      pr ∈ fs.files ∨ target.dropLast <+: pr.1) := by
  refine ⟨uePlan_none_of_enclosed hbad,
    extractLoop_erase (uePlan_none_of_enclosed hbad) pre fs post, ?_, ?_⟩
  · intro p hp
    rcases extractLoop_afterFS_dirs p hp with h | h
    · exact Or.inl h
    · rcases planDirs_ue_mem h with h' | h'
      · exact Or.inr (Or.inl h')
      · exact Or.inr (Or.inr h')
  · intro pr hp
    rcases extractLoop_afterFS_files pr hp with h | h
    · exact Or.inl h
    · exact Or.inr (planWrites_ue_mem h)

/-- Witness for the amended C10 on an escaping entry. -/
theorem C10_amended_loader_containment_witness :
    uePlan ["g", "W"] ⟨[.parentDir, .normal "UE4SS", .normal "x"], false, []⟩ = none :=
  (C10_amended_loader_containment ["g", "W"] ⟨[["g"]], [], []⟩ []
    ⟨[.parentDir, .normal "UE4SS", .normal "x"], false, []⟩ [] [] (by decide)).1

/-- C4: on a successful run, `install_mod_from_zip` reproduces the archive
verbatim under `targetDir/Mods`: every entry that passes the containment check
is planned at the Mods directory joined with its internal path unchanged (no
prefix filtered or stripped), and the final filesystem is exactly the initial
one overlaid with those writes in archive storage order (a later entry to the
same destination wins) together with the created directory chains. -/
theorem C4_mod_install_verbatim (win64 : List String) (fs : FS) (es : List ZipEntry)
    (fs' : FS) (hok : install_mod_from_zip win64 fs es = .ok fs') :
    (∀ e dest payload, modPlan (win64 ++ ["Mods"]) e = some (dest, payload) →
      dest = resolveFrom (win64 ++ ["Mods"]) e.path ∧
        payload = (if e.isDir then none else some e.data)) ∧
    (∀ p, fs'.files.lookup p =
      overlay (lastWrite (planWrites (modPlan (win64 ++ ["Mods"])) es) p)
        (fs.files.lookup p)) ∧
    (∀ p, p ∈ fs'.dirs ↔ (p ∈ fs.dirs ∨
      (fs.existsB (win64 ++ ["Mods"]) = false ∧ p ∈ pathPrefixes (win64 ++ ["Mods"])) ∨
      p ∈ planDirs (modPlan (win64 ++ ["Mods"])) es)) :=
  ⟨fun _ _ _ hm => ⟨(modPlan_some hm).1, (modPlan_some hm).2.1⟩,
    install_mod_ok_files hok, install_mod_ok_dirs hok⟩

/-- Witness for C4 on a one-entry archive. -/
theorem C4_mod_install_verbatim_witness :
    (["g", "Mods", "A", "x.pak"] : List String) =
        resolveFrom (["g"] ++ ["Mods"]) [.normal "A", .normal "x.pak"] ∧
      (some [1, 2] : Option (List Nat)) =
        (if (false : Bool) then none else some [1, 2]) :=
  (C4_mod_install_verbatim ["g"] ⟨[["g"]], [], []⟩
    [⟨[.normal "A", .normal "x.pak"], false, [1, 2]⟩]
    ⟨[["g"], ["g", "Mods"], ["g", "Mods", "A"]], [(["g", "Mods", "A", "x.pak"], [1, 2])], []⟩
    (by rfl)).1 ⟨[.normal "A", .normal "x.pak"], false, [1, 2]⟩
    ["g", "Mods", "A", "x.pak"] (some [1, 2]) (by rfl)

/-- C5: when `targetDir/Mods` does not exist or is not a directory,
`list_installed_mods` returns an empty list and no error. -/
theorem C5_list_mods_absent (win64 : List String) (fs : FS)
    (h : fs.existsB (win64 ++ ["Mods"]) = false ∨ fs.isDirB (win64 ++ ["Mods"]) = false) :
    list_installed_mods win64 fs = .ok [] := by
  have hc : ¬ ((fs.existsB (win64 ++ ["Mods"]) && fs.isDirB (win64 ++ ["Mods"])) = true) := by
    rcases h with h | h <;> simp [h]
  unfold list_installed_mods
  dsimp only
  rw [if_neg hc]

/-- Witness for C5 on a target with no Mods folder. -/
theorem C5_list_mods_absent_witness :
    list_installed_mods ["g"] ⟨[["g"]], [], []⟩ = .ok [] :=
  C5_list_mods_absent ["g"] ⟨[["g"]], [], []⟩ (by decide)

/-- C6: when `targetDir/Mods` exists as a directory, `list_installed_mods`
returns exactly the set of names of the immediate subdirectories of `Mods`: a
name is in the result iff `Mods/<name>` is a recorded directory (so no file
directly inside `Mods` contributes an element), and the result has no
duplicates. -/
theorem C6_list_mods_exact (win64 : List String) (fs : FS) (out : List String)
    (hdir : fs.isDirB (win64 ++ ["Mods"]) = true)
    (hout : list_installed_mods win64 fs = .ok out) :
    out.Nodup ∧ ∀ n, n ∈ out ↔ ((win64 ++ ["Mods"]) ++ [n]) ∈ fs.dirs := by
  have hcond : (fs.existsB (win64 ++ ["Mods"]) && fs.isDirB (win64 ++ ["Mods"])) = true := by
    simp [FS.existsB, hdir]
  unfold list_installed_mods at hout
  dsimp only at hout
  rw [if_pos hcond] at hout
  injection hout with hout
  subst hout
  constructor
  · exact (List.nodup_dedup _).filter _
  · intro n
    rw [List.mem_filter]
    constructor
    · rintro ⟨_, hd⟩
      exact isDirB_iff.mp hd
    · intro hmem
      refine ⟨?_, isDirB_iff.mpr hmem⟩
      unfold FS.childNames
      rw [List.mem_dedup, List.mem_filterMap]
      refine ⟨(win64 ++ ["Mods"]) ++ [n], List.mem_append_left _ hmem, ?_⟩
      rw [if_pos (by simp), List.getLast?_concat]

/-- Witness for C6 on a Mods folder with one subdirectory and one file. -/
theorem C6_list_mods_exact_witness :
    ("A" ∈ ["A"] ↔ ((["g"] ++ ["Mods"]) ++ ["A"]) ∈
      [["g"], ["g", "Mods"], ["g", "Mods", "A"]]) :=
  (C6_list_mods_exact ["g"]
    ⟨[["g"], ["g", "Mods"], ["g", "Mods", "A"]], [(["g", "Mods", "z.txt"], [])], []⟩
    ["A"] (by decide) (by rfl)).2 "A"

/-- C8: running `install_mod_from_zip` twice in succession with the same
archive and target yields the same final on-disk contents as running it once:
whenever both runs succeed, the second run's filesystem has exactly the same
file contents at every path and exactly the same directories as the first
run's — destination files are truncated and overwritten, never duplicated or
appended to. -/
theorem C8_mod_install_idempotent (win64 : List String) (fs fs1 fs2 : FS)
    (es : List ZipEntry)
    (h1 : install_mod_from_zip win64 fs es = .ok fs1)
    (h2 : install_mod_from_zip win64 fs1 es = .ok fs2) :
    (∀ p, fs2.files.lookup p = fs1.files.lookup p) ∧
    (∀ p, p ∈ fs2.dirs ↔ p ∈ fs1.dirs) := by
  constructor
  · intro p
    rw [install_mod_ok_files h2 p, install_mod_ok_files h1 p]
    cases hW : lastWrite (planWrites (modPlan (win64 ++ ["Mods"])) es) p <;>
      simp [overlay, hW]
  · intro p
    rw [install_mod_ok_dirs h2 p]
    have hex : fs1.existsB (win64 ++ ["Mods"]) = true := install_mod_exists_after h1
    rw [hex]
    constructor
    · rintro (h | ⟨hfalse, _⟩ | hpd)
      · exact h
      · cases hfalse
      · rw [install_mod_ok_dirs h1 p]
        exact Or.inr (Or.inr hpd)
    · intro h
      exact Or.inl h

/-- Witness for C8 on a one-entry archive installed twice. -/
theorem C8_mod_install_idempotent_witness :
    (["g", "Mods", "A", "x.pak"],
        [(1 : Nat), 2]) ∈ ([(["g", "Mods", "A", "x.pak"], [1, 2]),
          (["g", "Mods", "A", "x.pak"], [1, 2])] : List (List String × List Nat)) ∧
    ((["g", "Mods", "A", "x.pak"] : List String) ∈
        [["g"], ["g", "Mods"], ["g", "Mods", "A"]] ↔
      (["g", "Mods", "A", "x.pak"] : List String) ∈
        [["g"], ["g", "Mods"], ["g", "Mods", "A"]]) :=
  ⟨by decide,
    (C8_mod_install_idempotent ["g"]
      ⟨[["g"]], [], []⟩
      ⟨[["g"], ["g", "Mods"], ["g", "Mods", "A"]],
        [(["g", "Mods", "A", "x.pak"], [1, 2])], []⟩
      ⟨[["g"], ["g", "Mods"], ["g", "Mods", "A"]],
        [(["g", "Mods", "A", "x.pak"], [1, 2]), (["g", "Mods", "A", "x.pak"], [1, 2])], []⟩
      [⟨[.normal "A", .normal "x.pak"], false, [1, 2]⟩]
      (by rfl) (by rfl)).2 ["g", "Mods", "A", "x.pak"]⟩

theorem enclosedDepth_normals (names : List String) :
    ∀ d, (enclosedDepth d (names.map PathPart.normal)).isSome = true := by
  induction names with
  | nil => intro d; simp [enclosedDepth]
  | cons a t ih => intro d; simpa [enclosedDepth] using ih (d + 1)

theorem resolveFrom_normals (names : List String) :
    ∀ base, resolveFrom base (names.map PathPart.normal) = base ++ names := by
  induction names with
  | nil => intro base; simp [resolveFrom]
  | cons a t ih =>
    intro base
    rw [List.map_cons]
    simp only [resolveFrom]
    rw [ih (base ++ [a])]
    simp

theorem uePlan_normal_entry {t : List String} {e : ZipEntry} {c : String} {names : List String}
    (hpath : e.path = PathPart.normal c :: names.map PathPart.normal)
    (hue : asciiLower c = "ue4ss") :
    uePlan t e = if names = [] then none
      else some (t ++ names, if e.isDir then none else some e.data) := by
  have hd : (enclosedDepth 0 e.path).isSome = true := by
    rw [hpath]
    simpa [enclosedDepth] using enclosedDepth_normals names 1
  unfold uePlan
  unfold enclosed_name
  rw [if_pos hd, hpath]
  dsimp only
  rw [if_neg (by simp [PathPart.osStr, hue])]
  by_cases hn : names = []
  · subst hn
    simp
  · rw [if_neg (fun hcon => hn (by simpa using hcon)), if_neg hn,
      resolveFrom_normals names t]

/-- C2 counterexample: an archive whose single entry is `UE4SS/../evil.txt`
satisfies the claim's hypothesis — every entry's first path component equals
`UE4SS` case-insensitively — yet `install_ue4ss` does not reproduce the
archive's structure under `targetDir` with the leading component removed: the
run succeeds and creates a file at a path that does not lie under `targetDir`
at all. -/
theorem C2_strip_reproduction_counterexample :
    (∀ e ∈ [(⟨[.normal "UE4SS", .parentDir, .normal "evil.txt"], false, [7]⟩ : ZipEntry)],
      ∃ first rest, e.path = first :: rest ∧ asciiLower first.osStr = "ue4ss") ∧
    install_ue4ss ["g", "W"] ⟨[["g"], ["g", "W"]], [], []⟩
        [⟨[.normal "UE4SS", .parentDir, .normal "evil.txt"], false, [7]⟩] =
      .ok ⟨[["g"], ["g", "W"]], [(["g", "evil.txt"], [7])], []⟩ ∧
    (⟨[["g"], ["g", "W"]], [(["g", "evil.txt"], [7])], []⟩ : FS).files.lookup
        ["g", "evil.txt"] = some [7] ∧
    ¬ (["g", "W"] <+: ["g", "evil.txt"]) := by
  refine ⟨?_, by rfl, by rfl, by decide⟩
  intro e he
  rw [List.mem_singleton] at he
  subst he
  exact ⟨.normal "UE4SS", [.parentDir, .normal "evil.txt"], rfl, by decide⟩

/-- C2 amended: for archives in which every entry's path is a `UE4SS` first
component (case-insensitively) followed by plain name components,
`install_ue4ss` reproduces the archive's internal structure under `targetDir`
with that leading component removed from every path: each entry's plan is the
join of `targetDir` with the remaining component names (files carry the
entry's bytes, the folder marker with empty remainder is skipped), and a
successful run leaves exactly the initial filesystem overlaid with those
writes and the corresponding directory chains. -/
theorem C2_amended_ue4ss_strip (target : List String) (fs : FS) (entries : List ZipEntry)
    (fs' : FS)
    (hall : ∀ e ∈ entries, ∃ (c : String) (names : List String),
      e.path = PathPart.normal c :: names.map PathPart.normal ∧ asciiLower c = "ue4ss")
    (hok : install_ue4ss target fs entries = .ok fs') :
    (∀ e ∈ entries, uePlan target e =
      match e.path with
      | PathPart.normal _ :: rest =>
        if rest = [] then none
        else some (target ++ rest.map PathPart.osStr,
          if e.isDir then none else some e.data)
      | _ => none) ∧
    (∀ p, fs'.files.lookup p =
      overlay (lastWrite (planWrites (uePlan target) entries) p) (fs.files.lookup p)) ∧
    (∀ p, p ∈ fs'.dirs ↔ (p ∈ fs.dirs ∨ p ∈ planDirs (uePlan target) entries)) := by
  refine ⟨?_, extractLoop_ok_files hok, extractLoop_ok_dirs hok⟩
  intro e he
  obtain ⟨c, names, hpath, hue⟩ := hall e he
  rw [uePlan_normal_entry hpath hue, hpath]
  dsimp only
  have hmap : ∀ ns : List String, (ns.map PathPart.normal).map PathPart.osStr = ns := by
    intro ns
    induction ns with
    | nil => rfl
    | cons a t ih => simp only [List.map_cons, PathPart.osStr, ih]
  have hmap := hmap names
  by_cases hn : names = []
  · subst hn
    rfl
  · rw [if_neg hn,
      if_neg (show ¬ List.map PathPart.normal names = [] from fun hcon => hn (by simpa using hcon)),
      hmap]

/-- Witness for the amended C2 on a two-entry `UE4SS` archive. -/
theorem C2_amended_ue4ss_strip_witness :
    uePlan ["g", "W"] ⟨[.normal "UE4SS", .normal "Mods", .normal "m.lua"], false, [9]⟩ =
      some (["g", "W", "Mods", "m.lua"], some [9]) :=
  ((C2_amended_ue4ss_strip ["g", "W"] ⟨[["g"], ["g", "W"]], [], []⟩
    [⟨[.normal "UE4SS"], true, []⟩,
      ⟨[.normal "UE4SS", .normal "Mods", .normal "m.lua"], false, [9]⟩]
    ⟨[["g"], ["g", "W"], ["g", "W", "Mods"]], [(["g", "W", "Mods", "m.lua"], [9])], []⟩
    (by
      intro e he
      rcases List.mem_cons.mp he with h | h
      · subst h
        exact ⟨"UE4SS", [], by rfl, by decide⟩
      · rw [List.mem_singleton] at h
        subst h
        exact ⟨"UE4SS", ["Mods", "m.lua"], by rfl, by decide⟩)
    (by rfl)).1
    ⟨[.normal "UE4SS", .normal "Mods", .normal "m.lua"], false, [9]⟩
    (by simp)).trans (by rfl)

theorem mem_childNames_iff {fs : FS} {p : List String} {n : String} :
    n ∈ fs.childNames p ↔
      ((p ++ [n]) ∈ fs.dirs ∨ (p ++ [n]) ∈ fs.files.map Prod.fst) := by
  unfold FS.childNames
  rw [List.mem_dedup, List.mem_filterMap]
  constructor
  · rintro ⟨q, hq, hif⟩
    split at hif
    · next hdrop =>
      have hqne : q ≠ [] := by
        intro h0
        rw [h0] at hif
        cases hif
      have hqeq : q = p ++ [n] := by
        have hg : q.getLast hqne = n := by
          have hgl := List.getLast?_eq_getLast q hqne
          rw [hgl] at hif
          injection hif
        rw [← hdrop, ← hg]
        exact (List.dropLast_append_getLast hqne).symm
      rw [← hqeq]
      exact List.mem_append.mp hq
    · cases hif
  · intro h
    refine ⟨p ++ [n], ?_, ?_⟩
    · rcases h with h | h
      · exact List.mem_append_left _ h
      · exact List.mem_append_right _ h
    · rw [if_pos (by simp), List.getLast?_concat]

theorem self_mem_walk (fs : FS) : ∀ (fuel : Nat) (q : List String), q ∈ fs.walk fuel q := by
  intro fuel q
  cases fuel <;> simp [FS.walk]

theorem walk_extends {fs : FS} : ∀ (fuel : Nat) (p q : List String),
    q ∈ fs.walk fuel p → p <+: q := by
  intro fuel
  induction fuel with
  | zero =>
    intro p q h
    rw [FS.walk, List.mem_singleton] at h
    subst h
    exact ⟨[], by simp⟩
  | succ fuel ih =>
    intro p q h
    rw [FS.walk, List.mem_cons] at h
    rcases h with h | h
    · subst h
      exact ⟨[], by simp⟩
    · split at h
      · rw [List.mem_flatMap] at h
        obtain ⟨n, _, hq⟩ := h
        have hstep : p <+: p ++ [n] := ⟨[n], rfl⟩
        exact hstep.trans (ih (p ++ [n]) q hq)
      · cases h

theorem walk_src {fs : FS} : ∀ (fuel : Nat) (p q : List String),
    q ∈ fs.walk fuel p → q = p ∨ q ∈ fs.dirs ∨ q ∈ fs.files.map Prod.fst := by
  intro fuel
  induction fuel with
  | zero =>
    intro p q h
    rw [FS.walk, List.mem_singleton] at h
    exact Or.inl h
  | succ fuel ih =>
    intro p q h
    rw [FS.walk, List.mem_cons] at h
    rcases h with h | h
    · exact Or.inl h
    · split at h
      · rw [List.mem_flatMap] at h
        obtain ⟨n, hn, hq⟩ := h
        rcases ih (p ++ [n]) q hq with h' | h'
        · subst h'
          exact Or.inr (by simpa using mem_childNames_iff.mp hn)
        · exact Or.inr h'
      · cases h

theorem dirs_chain {fs : FS}
    (hWF : ∀ r ∈ fs.dirs, r ≠ [] ∧ (r.dropLast ≠ [] → r.dropLast ∈ fs.dirs)) :
    ∀ (n : Nat) (d : List String), d.length ≤ n → d ∈ fs.dirs →
      ∀ r, r <+: d → r ≠ [] → r ∈ fs.dirs := by
  intro n
  induction n with
  | zero =>
    intro d hlen hd r _ _
    have hdne := (hWF d hd).1
    cases d with
    | nil => exact absurd rfl hdne
    | cons a t => simp at hlen
  | succ n ih =>
    intro d hlen hd r hr hrne
    by_cases heq : r = d
    · subst heq
      exact hd
    · have hlt : r.length < d.length := by
        have hle := hr.length_le
        rcases Nat.lt_or_ge r.length d.length with h | h
        · exact h
        · exfalso
          apply heq
          have hl : r.length = d.length := Nat.le_antisymm hle h
          rw [← preTake hr, hl, List.take_length]
      have hrd : r <+: d.dropLast := by
        rw [List.dropLast_eq_take, ← preTake hr]
        have hh : (d.take (d.length - 1)).take r.length = d.take r.length := by
          rw [List.take_take, Nat.min_eq_left (by omega)]
        rw [← hh]
        exact takeIsPre _ _
      have hdne : d.dropLast ≠ [] := by
        intro h0
        rw [h0] at hrd
        obtain ⟨u, hu⟩ := hrd
        exact hrne (List.append_eq_nil.mp hu).1
      have hdd : d.dropLast ∈ fs.dirs := (hWF d hd).2 hdne
      exact ih d.dropLast (by rw [List.length_dropLast]; omega) hdd r hrd hrne

theorem walk_reaches {fs : FS} : ∀ (fuel : Nat) (p d : List String),
    p ∈ fs.dirs → p <+: d → d ≠ p → d ∈ fs.dirs →
    (∀ r ∈ fs.dirs, r.length < p.length + fuel) →
    (∀ r, r <+: d → r ≠ [] → r ∈ fs.dirs) →
    d ∈ fs.walk fuel p := by
  intro fuel
  induction fuel with
  | zero =>
    intro p d hp _ _ _ hbound _
    have := hbound p hp
    omega
  | succ fuel ih =>
    intro p d hp hpd hne hd hbound hchain
    rw [FS.walk, List.mem_cons]
    right
    rw [if_pos (isDirB_iff.mpr hp)]
    rw [List.mem_flatMap]
    obtain ⟨u, hu⟩ := hpd
    have hune : u ≠ [] := by
      intro h0
      apply hne
      rw [← hu, h0, List.append_nil]
    cases u with
    | nil => exact absurd rfl hune
    | cons x u' =>
      have hpx : (p ++ [x]) <+: d := ⟨u', by rw [← hu]; simp⟩
      have hpxd : (p ++ [x]) ∈ fs.dirs := hchain _ hpx (by simp)
      refine ⟨x, mem_childNames_iff.mpr (Or.inl hpxd), ?_⟩
      by_cases hdx : d = p ++ [x]
      · rw [hdx]
        exact self_mem_walk fs fuel (p ++ [x])
      · exact ih (p ++ [x]) d hpxd hpx hdx hd
          (fun r hr => by
            have := hbound r hr
            simp only [List.length_append, List.length_singleton]
            omega)
          hchain

theorem nodup_filterMap_on {α β : Type} {f : α → Option β} :
    ∀ {l : List α}, l.Nodup →
      (∀ a ∈ l, ∀ b ∈ l, ∀ c, f a = some c → f b = some c → a = b) →
      (l.filterMap f).Nodup := by
  intro l
  induction l with
  | nil =>
    intro _ _
    simp
  | cons x t ih =>
    intro hnd hinj
    rw [List.filterMap_cons]
    have htail : (t.filterMap f).Nodup :=
      ih (List.nodup_cons.mp hnd).2 (fun a ha b hb c h1 h2 =>
        hinj a (List.mem_cons_of_mem _ ha) b (List.mem_cons_of_mem _ hb) c h1 h2)
    cases hfx : f x with
    | none => exact htail
    | some c =>
      rw [List.nodup_cons]
      refine ⟨?_, htail⟩
      intro hc
      rw [List.mem_filterMap] at hc
      obtain ⟨a, ha, hfa⟩ := hc
      have hxa : x = a :=
        hinj x (List.mem_cons_self _ _) a (List.mem_cons_of_mem _ ha) c hfx hfa
      rw [hxa] at hnd
      exact (List.nodup_cons.mp hnd).1 ha

theorem walk_nodup {fs : FS} : ∀ (fuel : Nat) (p : List String), (fs.walk fuel p).Nodup := by
  intro fuel
  induction fuel with
  | zero =>
    intro p
    simp [FS.walk]
  | succ fuel ih =>
    intro p
    rw [FS.walk, List.nodup_cons]
    constructor
    · intro hmem
      split at hmem
      · rw [List.mem_flatMap] at hmem
        obtain ⟨n, _, hq⟩ := hmem
        have hlen := (walk_extends fuel (p ++ [n]) p hq).length_le
        simp at hlen
      · cases hmem
    · split
      · rw [List.nodup_flatMap]
        refine ⟨fun n _ => ih (p ++ [n]), ?_⟩
        have hnd : (fs.childNames p).Nodup := List.nodup_dedup _
        apply List.Pairwise.imp ?_ hnd
        intro a b hab q hqa hqb
        apply hab
        have h1 := walk_extends fuel (p ++ [a]) q hqa
        have h2 := walk_extends fuel (p ++ [b]) q hqb
        have e1 : q.take (p.length + 1) = p ++ [a] := by
          have := preTake h1
          simpa using this
        have e2 : q.take (p.length + 1) = p ++ [b] := by
          have := preTake h2
          simpa using this
        have := e1.symm.trans e2
        have := List.append_cancel_left this
        injection this
      · simp

theorem le_foldr_max : ∀ (l : List Nat) (x : Nat), x ∈ l → x ≤ l.foldr Nat.max 0 := by
  intro l
  induction l with
  | nil =>
    intro x h
    cases h
  | cons a t ih =>
    intro x h
    rcases List.mem_cons.mp h with h | h
    · subst h
      exact Nat.le_max_left _ _
    · exact Nat.le_trans (ih x h) (Nat.le_max_right _ _)

theorem depthBound_gt {fs : FS} : ∀ r ∈ fs.dirs, r.length < fs.depthBound := by
  intro r hr
  unfold FS.depthBound
  have hm : r.length ∈ (fs.dirs ++ fs.files.map Prod.fst).map List.length :=
    List.mem_map_of_mem _ (List.mem_append_left _ hr)
  have := le_foldr_max _ _ hm
  omega

theorem append_ne_self {α : Type} {a b : List α} (h : b ≠ []) : a ++ b ≠ a := by
  intro h0
  have hlen := congrArg List.length h0
  simp at hlen
  exact h hlen

theorem append_drop_of_pre {root d : List String} (h : root <+: d) :
    root ++ d.drop root.length = d := by
  obtain ⟨u, hu⟩ := h
  rw [← hu, List.drop_left]

theorem drop_ne_nil_of_proper {root d : List String} (h : root <+: d) (hne : d ≠ root) :
    d.drop root.length ≠ [] := by
  obtain ⟨u, hu⟩ := h
  rw [← hu, List.drop_left]
  intro h0
  apply hne
  rw [← hu, h0, List.append_nil]

theorem listAllRel_iff {fs : FS} {root : List String} (hroot : root ≠ [])
    (hWF : ∀ r ∈ fs.dirs, r ≠ [] ∧ (r.dropLast ≠ [] → r.dropLast ∈ fs.dirs)) :
    ∀ rel, rel ∈ listAllRel fs root ↔ ((root ++ rel) ∈ fs.dirs ∧ rel ≠ []) := by
  intro rel
  unfold listAllRel
  rw [List.mem_filterMap]
  constructor
  · rintro ⟨q, hq, hif⟩
    have hqext := walk_extends _ root q hq
    by_cases hdq : fs.isDirB q = true
    · rw [if_pos hdq] at hif
      dsimp only at hif
      unfold stripRoot at hif
      rw [if_pos hqext] at hif
      by_cases hempty : (q.drop root.length).isEmpty = true
      · rw [if_pos hempty] at hif
        cases hif
      · rw [if_neg hempty] at hif
        injection hif with hif
        subst hif
        refine ⟨?_, ?_⟩
        · rw [append_drop_of_pre hqext]
          exact isDirB_iff.mp hdq
        · intro h0
          rw [h0] at hempty
          exact hempty rfl
    · rw [if_neg hdq] at hif
      cases hif
  · rintro ⟨hd, hrelne⟩
    refine ⟨root ++ rel, ?_, ?_⟩
    · apply walk_reaches
      · exact dirs_chain hWF (root ++ rel).length _ le_rfl hd root ⟨rel, rfl⟩ hroot
      · exact ⟨rel, rfl⟩
      · exact append_ne_self hrelne
      · exact hd
      · intro r hr
        have := depthBound_gt r hr
        omega
      · exact fun r hr hrne => dirs_chain hWF (root ++ rel).length _ le_rfl hd r hr hrne
    · rw [if_pos (isDirB_iff.mpr hd)]
      dsimp only
      unfold stripRoot
      rw [if_pos (show root <+: root ++ rel from ⟨rel, rfl⟩), List.drop_left]
      rw [if_neg (by simpa using hrelne)]

/-- C7: `list_all_files_and_dirs` on a nonexistent root returns an empty list
and no error; on an existing root of a well-formed filesystem it returns, as
`/`-joined relative paths, exactly the directories of the subtree strictly
below the root — every recorded directory under the root appears, nothing
else (in particular no file and not the root itself) appears, and each
appears exactly once. -/
theorem C7_scan_subtree (fs : FS) (root : List String)
    (hroot : root ≠ [])
    (hWF : ∀ r ∈ fs.dirs, r ≠ [] ∧ (r.dropLast ≠ [] → r.dropLast ∈ fs.dirs))
    (hdisp : ((fs.dirs.filter (fun d => decide (root <+: d ∧ d ≠ root))).map
      (fun d => String.intercalate "/" (d.drop root.length))).Nodup) :
    (fs.existsB root = false → list_all_files_and_dirs fs root = .ok []) ∧
    (fs.existsB root = true →
      list_all_files_and_dirs fs root =
        .ok ((listAllRel fs root).map (fun rel => String.intercalate "/" rel)) ∧
      ((listAllRel fs root).map (fun rel => String.intercalate "/" rel)).Nodup ∧
      ∀ s, s ∈ (listAllRel fs root).map (fun rel => String.intercalate "/" rel) ↔
        ∃ d ∈ fs.dirs, root <+: d ∧ d ≠ root ∧
          s = String.intercalate "/" (d.drop root.length)) := by
  have hrel := listAllRel_iff hroot hWF
  constructor
  · intro h
    unfold list_all_files_and_dirs
    rw [if_neg (by rw [h]; intro hc; cases hc)]
  · intro hex
    refine ⟨?_, ?_, ?_⟩
    · unfold list_all_files_and_dirs
      rw [if_pos hex]
    · have hrelnodup : (listAllRel fs root).Nodup := by
        unfold listAllRel
        apply nodup_filterMap_on (walk_nodup _ _)
        intro a ha b hb c h1 h2
        dsimp only at h1 h2
        have hae := walk_extends _ root a ha
        have hbe := walk_extends _ root b hb
        have key : ∀ q, root <+: q →
            (if fs.isDirB q = true then
              (fun rel => if rel.isEmpty = true then none else some rel) (stripRoot root q)
            else none) = some c → q = root ++ c := by
          intro q hqpre hsome
          by_cases hdq : fs.isDirB q = true
          · rw [if_pos hdq] at hsome
            dsimp only at hsome
            unfold stripRoot at hsome
            rw [if_pos hqpre] at hsome
            by_cases hempty : (q.drop root.length).isEmpty = true
            · rw [if_pos hempty] at hsome
              cases hsome
            · rw [if_neg hempty] at hsome
              injection hsome with hsome
              rw [← hsome, append_drop_of_pre hqpre]
          · rw [if_neg hdq] at hsome
            cases hsome
        rw [key a hae h1, key b hbe h2]
      apply List.Nodup.map_on ?_ hrelnodup
      intro x hx y hy hxy
      have hx' := (hrel x).mp hx
      have hy' := (hrel y).mp hy
      have hmx : (root ++ x) ∈ fs.dirs.filter (fun d => decide (root <+: d ∧ d ≠ root)) := by
        rw [List.mem_filter]
        refine ⟨hx'.1, ?_⟩
        rw [decide_eq_true_eq]
        exact ⟨⟨x, rfl⟩, append_ne_self hx'.2⟩
      have hmy : (root ++ y) ∈ fs.dirs.filter (fun d => decide (root <+: d ∧ d ≠ root)) := by
        rw [List.mem_filter]
        refine ⟨hy'.1, ?_⟩
        rw [decide_eq_true_eq]
        exact ⟨⟨y, rfl⟩, append_ne_self hy'.2⟩
      have hcancel : root ++ x = root ++ y := by
        apply List.inj_on_of_nodup_map hdisp hmx hmy
        rw [List.drop_left, List.drop_left]
        exact hxy
      exact List.append_cancel_left hcancel
    · intro s
      rw [List.mem_map]
      constructor
      · rintro ⟨rel, hmem, hs⟩
        have h' := (hrel rel).mp hmem
        refine ⟨root ++ rel, h'.1, ⟨rel, rfl⟩, append_ne_self h'.2, ?_⟩
        rw [List.drop_left, hs]
      · rintro ⟨d, hd, hpre, hne, hs⟩
        refine ⟨d.drop root.length, ?_, hs.symm⟩
        rw [hrel]
        refine ⟨?_, drop_ne_nil_of_proper hpre hne⟩
        rw [append_drop_of_pre hpre]
        exact hd

/-- Witness for C7 on the spec's example tree `a/`, `a/b/`, `c/`. -/
theorem C7_scan_subtree_witness :
    ("a/b" ∈ (listAllRel ⟨[["r"], ["r", "a"], ["r", "a", "b"], ["r", "c"]], [], []⟩
        ["r"]).map (fun rel => String.intercalate "/" rel) ↔
      ∃ d ∈ (⟨[["r"], ["r", "a"], ["r", "a", "b"], ["r", "c"]], [], []⟩ : FS).dirs,
        ["r"] <+: d ∧ d ≠ ["r"] ∧
          "a/b" = String.intercalate "/" (d.drop (["r"] : List String).length)) :=
  ((C7_scan_subtree ⟨[["r"], ["r", "a"], ["r", "a", "b"], ["r", "c"]], [], []⟩ ["r"]
    (by decide) (by decide) (by decide)).2 (by rfl)).2.2 "a/b"
